import Mathlib

/-!
Verification of the `sec_im_cleanup` source-to-source cleanup tool.

The repository contains two TypeScript-AST rewrite scripts plus an older
variant of the second one:

* `clean1.js` — removes calls to instrumentation functions (`console.log`
  and a denylist of method names) and collapses the surrounding `if`/`else`
  structure (`shouldRemoveCall`, the `visit` closure of `processNode`, and
  the post-print blank-line filter inside `removeCommentsAndEmptyLines`);
* `clean3.js` — un-braces single-statement `if`/`else` blocks whose single
  statement is an expression statement or a return statement (the `visit`
  closure of `createTransformer`, and `processFile`, which compares the
  transformed text against the original before writing).

Parsing and printing are performed by the external TypeScript library and
are out of scope (spec §1); the tree rewrites, the textual line filter and
the write-back decision are embedded below, translated from the source.

The syntax-tree model: statements carry the node kinds the engine
inspects (`IfStatement`, `Block`, `ExpressionStatement`,
`ReturnStatement`) plus an opaque variant for every other statement kind
with a statement-list of children (source files, module blocks, case
clauses, ...); expressions carry `Identifier`, `PropertyAccessExpression`
and `CallExpression` plus an opaque variant.  In the TypeScript AST the
`thenStatement` of a parsed `IfStatement` is always present, but
`ts.factory.updateIfStatement` is untyped enough to accept `undefined`,
and `clean1.js` explicitly guards `if (!thenStatement)`, so both branches
are modelled as `Option Stmt`.
-/

inductive Expr : Type where
  | ident (name : String)
  | propAccess (obj : Expr) (propName : String)
  | call (callee : Expr) (args : List Expr)
  | otherExpr (tag : String) (children : List Expr)

inductive Stmt : Type where
  | exprStmt (e : Expr)
  | returnStmt (e : Option Expr)
  | block (stmts : List Stmt)
  | ifStmt (cond : Expr) (thenB : Option Stmt) (elseB : Option Stmt)
  | otherStmt (tag : String) (children : List Stmt)

mutual
/-- Model of `node.getText()` as used by `shouldRemoveCall` (clean1.js line
23, `expression.expression.getText() === 'console'`).  An identifier's text
is its name; every composite expression's source text contains punctuation
(`.` for a property access, `(`/`)` for a call), and the opaque variant
stands for the remaining non-identifier expression kinds (literals,
parenthesized expressions, `this`, ...), whose source text is never the
bare token `console`; we render it with surrounding parentheses to reflect
that. -/
def exprText : Expr → String
  | .ident name => name
  | .propAccess obj propName => exprText obj ++ "." ++ propName
  | .call callee args => exprText callee ++ "(" ++ exprTextList args ++ ")"
  | .otherExpr tag children => "(" ++ tag ++ exprTextList children ++ ")"
/-- Concatenated texts of a list of child expressions. -/
def exprTextList : List Expr → String
  | [] => ""
  | e :: rest => exprText e ++ exprTextList rest
end

/-- clean1.js lines 5–15. -/
def REMOVABLE_FUNCTIONS : List String :=
  ["countEvent",
   "countRareEvent",
   "scopedProfileSectionStart",
   "scopedProfileSectionEnd",
   "profileSectionStart",
   "profileSectionEnd",
   "playbackLogNote",
   "debug",
   "info"]

/-- clean1.js lines 17–31: true iff the node is a call whose callee is a
property access `X.method` with either `X.getText() === 'console'` and
`method === 'log'`, or `method` in `REMOVABLE_FUNCTIONS`. -/
def shouldRemoveCall : Expr → Bool
  | .call (.propAccess obj methodName) _ =>
      (exprText obj == "console" && methodName == "log")
        || REMOVABLE_FUNCTIONS.contains methodName
  | _ => false

mutual
/-- The action of clean1.js's `visit` on expression nodes: none of its
rules match an expression kind (`ts.isIfStatement` and
`ts.isExpressionStatement` are false), so it falls through to
`ts.visitEachChild`, which rebuilds the node from its visited children. -/
def visitExpr : Expr → Expr
  | .ident name => .ident name
  | .propAccess obj propName => .propAccess (visitExpr obj) propName
  | .call callee args => .call (visitExpr callee) (visitExprList args)
  | .otherExpr tag children => .otherExpr tag (visitExprList children)
/-- Child-wise visit of a list of expressions. -/
def visitExprList : List Expr → List Expr
  | [] => []
  | e :: rest => visitExpr e :: visitExprList rest
end

namespace Clean1

/-- clean1.js lines 42–43 / 48–49: the branch (pre-rewrite) is syntactically
an `ExpressionStatement` whose expression is a removable call. -/
def isRemovableExprStmt : Option Stmt → Bool
  | some (.exprStmt e) => shouldRemoveCall e
  | _ => false

mutual
/-- clean1.js lines 34–73, the `visit` closure of `processNode`.
`none` is the JavaScript `undefined` returned for a removed statement. -/
def visit : Stmt → Option Stmt
  | .ifStmt cond thenB elseB =>
      let thenS := visitOpt thenB
      let elseS := visitOpt elseB
      if isRemovableExprStmt thenB then
        elseS
      else
        let elseS2 := if elseS.isSome && isRemovableExprStmt elseB then none else elseS
        match thenS with
        | none => elseS2
        | some t => some (.ifStmt cond (some t) elseS2)
  | .exprStmt e => if shouldRemoveCall e then none else some (.exprStmt (visitExpr e))
  | .returnStmt e => some (.returnStmt (e.map visitExpr))
  | .block stmts => some (.block (visitList stmts))
  | .otherStmt tag children => some (.otherStmt tag (visitList children))
/-- `ts.visitNode(maybeNode, visit)`: `undefined` stays `undefined`. -/
def visitOpt : Option Stmt → Option Stmt
  | none => none
  | some s => visit s
/-- `ts.visitNodes` inside `ts.visitEachChild`: each element is visited and
elements whose visit returns `undefined` are dropped from the rebuilt
array. -/
def visitList : List Stmt → List Stmt
  | [] => []
  | s :: rest =>
      match visit s with
      | none => visitList rest
      | some t => t :: visitList rest
end

/-- clean1.js lines 139–141: the transformer is applied to the source file,
whose children are its top-level statements. -/
def visitFile (stmts : List Stmt) : List Stmt := visitList stmts

end Clean1

namespace Clean3

/-- clean3.js lines 14–17 / 30–32: the statement is an
`ExpressionStatement` or a `ReturnStatement`. -/
def isSimplifiable : Stmt → Bool
  | .exprStmt _ => true
  | .returnStmt _ => true
  | _ => false

/-- The single statement of a one-statement block when it is simplifiable
(clean3.js lines 14–17 and 30–32), `none` otherwise. -/
def singleSimplifiable : List Stmt → Option Stmt
  | [single] => if isSimplifiable single then some single else none
  | _ => none

/-- clean3.js lines 13–17: test on the (pre-visit) `thenStatement` of an
`IfStatement`: it is a `Block` with exactly one simplifiable statement. -/
def simplifyThen : Option Stmt → Option Stmt
  | some (.block stmts) => singleSimplifiable stmts
  | _ => none

mutual
/-- clean3.js lines 10–39, the `visit` closure of `createTransformer`.
The boolean records whether the node being visited is the `elseStatement`
child of an `IfStatement` — in the source this is read off the parent
pointer (`node.parent && ts.isIfStatement(node.parent) &&
node.parent.elseStatement === node`, line 29); in this pure embedding the
only call sites that put a node in that position pass `true`.  When the
then-rule fires (lines 18–23) the single statement is inserted unvisited
and the else branch is visited by the explicit `visit(node.elseStatement)`
call; otherwise the node falls through to `ts.visitEachChild`. -/
def visit : Bool → Stmt → Stmt
  | _, .exprStmt e => .exprStmt e
  | _, .returnStmt e => .returnStmt e
  | inElse, .block stmts =>
      if inElse then
        match singleSimplifiable stmts with
        | some single => single
        | none => .block (visitList stmts)
      else .block (visitList stmts)
  | _, .ifStmt cond thenB elseB =>
      match simplifyThen thenB with
      | some single => .ifStmt cond (some single) (visitOpt true elseB)
      | none => .ifStmt cond (visitOpt false thenB) (visitOpt true elseB)
  | _, .otherStmt tag children => .otherStmt tag (visitList children)
/-- Visit of an optional child node. -/
def visitOpt : Bool → Option Stmt → Option Stmt
  | _, none => none
  | b, some s => some (visit b s)
/-- `ts.visitNodes` over a statement list; list elements are never in else
position. -/
def visitList : List Stmt → List Stmt
  | [] => []
  | s :: rest => visit false s :: visitList rest
end

/-- clean3.js line 41 applied to a source file: `ts.visitNode(sourceFile,
visit)` falls through to `ts.visitEachChild`, visiting the top-level
statements (none of which is in else position). -/
def visitFile (stmts : List Stmt) : List Stmt := visitList stmts

end Clean3

/-- Model of `String.prototype.split('\n')` (clean1.js line 124) over the
character list of the text: splits at every newline, keeping empty
chunks. -/
def splitNl : List Char → List (List Char)
  | [] => [[]]
  | c :: rest =>
      if c = '\n' then [] :: splitNl rest
      else
        match splitNl rest with
        | [] => [[c]]
        | l :: ls => (c :: l) :: ls

/-- Model of `Array.prototype.join('\n')` (clean1.js line 126). -/
def joinNl : List (List Char) → List Char
  | [] => []
  | [l] => l
  | l :: l2 :: ls => l ++ '\n' :: joinNl (l2 :: ls)

/-- Model of `String.prototype.trim()` (clean1.js line 125): strip
whitespace from both ends of the line. -/
def trimChars (l : List Char) : List Char :=
  ((l.dropWhile Char.isWhitespace).reverse.dropWhile Char.isWhitespace).reverse

/-- clean1.js line 125: `line.includes('eslint') || line.trim().length > 0`. -/
def keepLine (l : List Char) : Bool :=
  decide ("eslint".data <:+: l) || decide (0 < (trimChars l).length)

namespace Clean1

/-- clean1.js lines 122–126: the post-print textual stage of
`removeCommentsAndEmptyLines` — split the printed text into lines, keep a
line iff it contains `'eslint'` or is non-blank, and join the survivors
with newlines.  (The earlier part of the function only re-prints the tree
through the external printer, which is out of scope.) -/
def removeCommentsAndEmptyLines (printed : String) : String :=
  String.mk (joinNl ((splitNl printed.data).filter keepLine))

end Clean1

/-- The tree-rewrite stage of the spec's per-file pipeline (§2 data flow):
Conditional Rewriter (clean1) then Block Simplifier (clean3). -/
def rewriteFile (stmts : List Stmt) : List Stmt :=
  Clean3.visitFile (Clean1.visitFile stmts)

/-- The per-file pipeline of the spec (§2): parse, rewrite, print,
blank-line filter.  `parse` and `print` are the external parser/printer
collaborators. -/
def pipeline (parse : String → List Stmt) (print : List Stmt → String)
    (x : String) : String :=
  Clean1.removeCommentsAndEmptyLines (print (rewriteFile (parse x)))

/-- Result of `processFile` (clean3.js lines 80–101): the file's stored
contents after the call, whether the file was reported as changed, and
whether a write was performed. -/
structure FileResult where
  contents : String
  changed : Bool
  wrote : Bool

namespace Clean3

/-- clean3.js lines 80–101: read the file, transform, and only when
`sourceCode !== transformed` either report (dry run) or write back;
otherwise report "Skipped (no changes needed)" and leave the file alone.
The transformation (`transformCode`) is passed as a parameter since its
parse/print internals are external. -/
def processFile (transform : String → String) (dryRun : Bool)
    (sourceCode : String) : FileResult :=
  if sourceCode ≠ transform sourceCode then
    if dryRun then
      { contents := sourceCode, changed := true, wrote := false }
    else
      { contents := transform sourceCode, changed := true, wrote := true }
  else
    { contents := sourceCode, changed := false, wrote := false }

end Clean3

mutual
/-- Analysis predicate: the tree contains no `ExpressionStatement` whose
expression is a removable call, and every `IfStatement` has a present
then-branch.  `Clean1.visit` always produces such trees and is the
identity on them. -/
def good : Stmt → Bool
  | .exprStmt e => !shouldRemoveCall e
  | .returnStmt _ => true
  | .block stmts => goodList stmts
  | .ifStmt _ thenB elseB => goodThen thenB && goodOpt elseB
  | .otherStmt _ children => goodList children
/-- `good` on a then-branch: the branch must be present. -/
def goodThen : Option Stmt → Bool
  | none => false
  | some s => good s
/-- `good` on an optional branch. -/
def goodOpt : Option Stmt → Bool
  | none => true
  | some s => good s
/-- `good` on every element of a list. -/
def goodList : List Stmt → Bool
  | [] => true
  | s :: rest => good s && goodList rest
end

mutual
/-- Analysis predicate for claim C8: no `IfStatement` anywhere in the tree
has an absent then-branch. -/
def noAbsentThen : Stmt → Bool
  | .exprStmt _ => true
  | .returnStmt _ => true
  | .block stmts => noAbsentThenList stmts
  | .ifStmt _ thenB elseB => noAbsentThenThen thenB && noAbsentThenOpt elseB
  | .otherStmt _ children => noAbsentThenList children
/-- `noAbsentThen` on a then-branch: the branch must be present. -/
def noAbsentThenThen : Option Stmt → Bool
  | none => false
  | some s => noAbsentThen s
/-- `noAbsentThen` on an optional branch. -/
def noAbsentThenOpt : Option Stmt → Bool
  | none => true
  | some s => noAbsentThen s
/-- `noAbsentThen` on every element of a list. -/
def noAbsentThenList : List Stmt → Bool
  | [] => true
  | s :: rest => noAbsentThen s && noAbsentThenList rest
end

mutual
theorem visitExpr_id : (e : Expr) → visitExpr e = e
  | .ident _ => rfl
  | .propAccess obj p => by rw [visitExpr, visitExpr_id obj]
  | .call c args => by rw [visitExpr, visitExpr_id c, visitExprList_id args]
  | .otherExpr t cs => by rw [visitExpr, visitExprList_id cs]
theorem visitExprList_id : (l : List Expr) → visitExprList l = l
  | [] => rfl
  | e :: rest => by rw [visitExprList, visitExpr_id e, visitExprList_id rest]
end

theorem exprText_eq_console (e : Expr) : exprText e = "console" ↔ e = .ident "console" := by
  constructor
  · intro h
    match e with
    | .ident n =>
        rw [exprText] at h
        rw [h]
    | .propAccess obj p =>
        exfalso
        have hm : '.' ∈ (exprText (.propAccess obj p)).data := by
          rw [exprText]
          simp [String.data_append]
        rw [h] at hm
        exact absurd hm (by decide)
    | .call c args =>
        exfalso
        have hm : '(' ∈ (exprText (.call c args)).data := by
          rw [exprText]
          simp [String.data_append]
        rw [h] at hm
        exact absurd hm (by decide)
    | .otherExpr t cs =>
        exfalso
        have hm : '(' ∈ (exprText (.otherExpr t cs)).data := by
          rw [exprText]
          simp [String.data_append]
        rw [h] at hm
        exact absurd hm (by decide)
  · intro h
    rw [h, exprText]

theorem Clean1.visitOpt_of_removable (o : Option Stmt)
    (h : Clean1.isRemovableExprStmt o = true) : Clean1.visitOpt o = none := by
  match o with
  | none => exact absurd h (by simp [Clean1.isRemovableExprStmt])
  | some (.exprStmt e) =>
      rw [Clean1.isRemovableExprStmt] at h
      rw [Clean1.visitOpt, Clean1.visit, h]
      rfl
  | some (.returnStmt e) => exact absurd h (by simp [Clean1.isRemovableExprStmt])
  | some (.block stmts) => exact absurd h (by simp [Clean1.isRemovableExprStmt])
  | some (.ifStmt c t e) => exact absurd h (by simp [Clean1.isRemovableExprStmt])
  | some (.otherStmt t cs) => exact absurd h (by simp [Clean1.isRemovableExprStmt])

/-- The second guard of the if-rule (clean1.js lines 48–51) can never fire:
when the pre-rewrite else branch is a removable expression statement, its
own visit already returned `undefined`, so `elseStatement` is falsy.  The
visit of an `IfStatement` therefore simplifies to this shape. -/
theorem Clean1.visit_ifStmt (cond : Expr) (thenB elseB : Option Stmt) :
    Clean1.visit (.ifStmt cond thenB elseB) =
      if Clean1.isRemovableExprStmt thenB then Clean1.visitOpt elseB
      else
        match Clean1.visitOpt thenB with
        | none => Clean1.visitOpt elseB
        | some t => some (.ifStmt cond (some t) (Clean1.visitOpt elseB)) := by
  rw [Clean1.visit]
  have h2 : (if (Clean1.visitOpt elseB).isSome && Clean1.isRemovableExprStmt elseB
      then none else Clean1.visitOpt elseB) = Clean1.visitOpt elseB := by
    cases h : Clean1.isRemovableExprStmt elseB
    · simp
    · simp [Clean1.visitOpt_of_removable elseB h]
  rw [h2]

theorem good_not_removable (s : Stmt) (h : good s = true) :
    Clean1.isRemovableExprStmt (some s) = true → False := by
  match s with
  | .exprStmt e =>
      rw [good] at h
      rw [Clean1.isRemovableExprStmt]
      simp only [Bool.not_eq_true'] at h
      simp [h]
  | .returnStmt e => simp [Clean1.isRemovableExprStmt]
  | .block stmts => simp [Clean1.isRemovableExprStmt]
  | .ifStmt c t e => simp [Clean1.isRemovableExprStmt]
  | .otherStmt t cs => simp [Clean1.isRemovableExprStmt]

mutual
theorem Clean1.visit_good : ∀ s t, Clean1.visit s = some t → good t = true
  | .exprStmt e, t, h => by
      rw [Clean1.visit] at h
      cases hr : shouldRemoveCall e with
      | true => rw [hr] at h; exact absurd h (by simp)
      | false =>
          rw [hr] at h
          simp only [Bool.false_eq_true, if_false, Option.some.injEq] at h
          rw [← h, good, visitExpr_id e, hr]
          rfl
  | .returnStmt e, t, h => by
      rw [Clean1.visit] at h
      simp only [Option.some.injEq] at h
      rw [← h, good]
  | .block stmts, t, h => by
      rw [Clean1.visit] at h
      simp only [Option.some.injEq] at h
      rw [← h, good]
      exact Clean1.visitList_good stmts
  | .otherStmt tag cs, t, h => by
      rw [Clean1.visit] at h
      simp only [Option.some.injEq] at h
      rw [← h, good]
      exact Clean1.visitList_good cs
  | .ifStmt cond thenB elseB, t, h => by
      rw [Clean1.visit_ifStmt] at h
      cases h1 : Clean1.isRemovableExprStmt thenB with
      | true =>
          rw [h1] at h
          simp only [if_true] at h
          exact Clean1.visitOpt_good elseB t h
      | false =>
          rw [h1] at h
          simp only [Bool.false_eq_true, if_false] at h
          cases hthen : Clean1.visitOpt thenB with
          | none =>
              rw [hthen] at h
              exact Clean1.visitOpt_good elseB t h
          | some t' =>
              rw [hthen] at h
              simp only [Option.some.injEq] at h
              rw [← h, good, goodThen]
              have hg1 : good t' = true := Clean1.visitOpt_good thenB t' hthen
              rw [hg1]
              cases helse : Clean1.visitOpt elseB with
              | none => rfl
              | some e' =>
                  rw [goodOpt, Clean1.visitOpt_good elseB e' helse]
                  rfl
theorem Clean1.visitOpt_good : ∀ o t, Clean1.visitOpt o = some t → good t = true
  | none, t, h => by rw [Clean1.visitOpt] at h; exact absurd h (by simp)
  | some s, t, h => Clean1.visit_good s t (by rw [Clean1.visitOpt] at h; exact h)
theorem Clean1.visitList_good : ∀ l, goodList (Clean1.visitList l) = true
  | [] => rfl
  | s :: rest => by
      rw [Clean1.visitList]
      cases h : Clean1.visit s with
      | none => exact Clean1.visitList_good rest
      | some t =>
          rw [goodList, Clean1.visit_good s t h, Clean1.visitList_good rest]
          rfl
end

mutual
theorem Clean1.visit_id : ∀ s, good s = true → Clean1.visit s = some s
  | .exprStmt e, h => by
      rw [good] at h
      simp only [Bool.not_eq_true'] at h
      rw [Clean1.visit, h, visitExpr_id e]
      rfl
  | .returnStmt e, _ => by
      rw [Clean1.visit]
      cases e with
      | none => rfl
      | some e0 => rw [Option.map, visitExpr_id e0]
  | .block stmts, h => by
      rw [good] at h
      rw [Clean1.visit, Clean1.visitList_id stmts h]
  | .otherStmt tag cs, h => by
      rw [good] at h
      rw [Clean1.visit, Clean1.visitList_id cs h]
  | .ifStmt cond thenB elseB, h => by
      rw [good, Bool.and_eq_true] at h
      obtain ⟨h1, h2⟩ := h
      match thenB with
      | none => rw [goodThen] at h1; exact absurd h1 (by simp)
      | some tb =>
          rw [goodThen] at h1
          rw [Clean1.visit_ifStmt]
          have hrem : Clean1.isRemovableExprStmt (some tb) = false := by
            cases hr : Clean1.isRemovableExprStmt (some tb) with
            | false => rfl
            | true => exact absurd (good_not_removable tb h1 hr) (fun f => f)
          rw [hrem]
          simp only [Bool.false_eq_true, if_false]
          rw [Clean1.visitOpt, Clean1.visit_id tb h1]
          have helse : Clean1.visitOpt elseB = elseB := by
            match elseB with
            | none => rfl
            | some eb =>
                rw [goodOpt] at h2
                rw [Clean1.visitOpt, Clean1.visit_id eb h2]
          rw [helse]
theorem Clean1.visitList_id : ∀ l, goodList l = true → Clean1.visitList l = l
  | [], _ => rfl
  | s :: rest, h => by
      rw [goodList, Bool.and_eq_true] at h
      rw [Clean1.visitList, Clean1.visit_id s h.1, Clean1.visitList_id rest h.2]
end

mutual
theorem good_noAbsentThen : ∀ s, good s = true → noAbsentThen s = true
  | .exprStmt _, _ => rfl
  | .returnStmt _, _ => rfl
  | .block stmts, h => by
      rw [good] at h
      rw [noAbsentThen]
      exact good_noAbsentThen_list stmts h
  | .otherStmt _ cs, h => by
      rw [good] at h
      rw [noAbsentThen]
      exact good_noAbsentThen_list cs h
  | .ifStmt cond thenB elseB, h => by
      rw [good, Bool.and_eq_true] at h
      obtain ⟨h1, h2⟩ := h
      rw [noAbsentThen, Bool.and_eq_true]
      constructor
      · match thenB with
        | none => rw [goodThen] at h1; exact absurd h1 (by simp)
        | some tb =>
            rw [goodThen] at h1
            rw [noAbsentThenThen]
            exact good_noAbsentThen tb h1
      · match elseB with
        | none => rfl
        | some eb =>
            rw [goodOpt] at h2
            rw [noAbsentThenOpt]
            exact good_noAbsentThen eb h2
theorem good_noAbsentThen_list : ∀ l, goodList l = true → noAbsentThenList l = true
  | [], _ => rfl
  | s :: rest, h => by
      rw [goodList, Bool.and_eq_true] at h
      rw [noAbsentThenList, good_noAbsentThen s h.1, good_noAbsentThen_list rest h.2]
      rfl
end

theorem Clean3.visit_of_simplifiable (s : Stmt) (h : Clean3.isSimplifiable s = true)
    (b : Bool) : Clean3.visit b s = s := by
  match s with
  | .exprStmt e => rw [Clean3.visit]
  | .returnStmt e => rw [Clean3.visit]
  | .block stmts => exact absurd h (by simp [Clean3.isSimplifiable])
  | .ifStmt c t e => exact absurd h (by simp [Clean3.isSimplifiable])
  | .otherStmt t cs => exact absurd h (by simp [Clean3.isSimplifiable])

theorem Clean3.simplifyThen_of_simplifiable (s : Stmt)
    (h : Clean3.isSimplifiable s = true) : Clean3.simplifyThen (some s) = none := by
  match s with
  | .exprStmt e => rfl
  | .returnStmt e => rfl
  | .block stmts => exact absurd h (by simp [Clean3.isSimplifiable])
  | .ifStmt c t e => exact absurd h (by simp [Clean3.isSimplifiable])
  | .otherStmt t cs => exact absurd h (by simp [Clean3.isSimplifiable])

theorem Clean3.singleSimplifiable_eq_some (stmts : List Stmt) (s : Stmt)
    (h : Clean3.singleSimplifiable stmts = some s) :
    stmts = [s] ∧ Clean3.isSimplifiable s = true := by
  match stmts with
  | [] => exact absurd h (by simp [Clean3.singleSimplifiable])
  | [x] =>
      rw [Clean3.singleSimplifiable] at h
      cases hs : Clean3.isSimplifiable x with
      | false => rw [hs] at h; exact absurd h (by simp)
      | true =>
          rw [hs] at h
          simp only [if_true, Option.some.injEq] at h
          rw [← h]
          exact ⟨rfl, hs⟩
  | x :: y :: rest => exact absurd h (by simp [Clean3.singleSimplifiable])

theorem Clean3.simplifyThen_eq_some (o : Option Stmt) (s : Stmt)
    (h : Clean3.simplifyThen o = some s) :
    o = some (.block [s]) ∧ Clean3.isSimplifiable s = true := by
  match o with
  | none => exact absurd h (by simp [Clean3.simplifyThen])
  | some (.exprStmt e) => exact absurd h (by simp [Clean3.simplifyThen])
  | some (.returnStmt e) => exact absurd h (by simp [Clean3.simplifyThen])
  | some (.ifStmt c t e) => exact absurd h (by simp [Clean3.simplifyThen])
  | some (.otherStmt t cs) => exact absurd h (by simp [Clean3.simplifyThen])
  | some (.block stmts) =>
      have h' : Clean3.singleSimplifiable stmts = some s := h
      obtain ⟨h1, h2⟩ := Clean3.singleSimplifiable_eq_some stmts s h' 
      rw [h1]
      exact ⟨rfl, h2⟩

theorem Clean3.visit_false_kind (s : Stmt) :
    Clean3.isSimplifiable (Clean3.visit false s) = Clean3.isSimplifiable s := by
  match s with
  | .exprStmt e => rfl
  | .returnStmt e => rfl
  | .block stmts => rfl
  | .otherStmt t cs => rfl
  | .ifStmt c t e =>
      rw [Clean3.visit]
      cases h : Clean3.simplifyThen t with
      | none => rfl
      | some single => rfl

theorem Clean3.singleSimplifiable_visitList (stmts : List Stmt)
    (h : Clean3.singleSimplifiable stmts = none) :
    Clean3.singleSimplifiable (Clean3.visitList stmts) = none := by
  match stmts with
  | [] => rfl
  | [x] =>
      rw [Clean3.singleSimplifiable] at h
      have hx : Clean3.isSimplifiable x = false := by
        cases hs : Clean3.isSimplifiable x with
        | false => rfl
        | true => rw [hs] at h; exact absurd h (by simp)
      show Clean3.singleSimplifiable [Clean3.visit false x] = none
      rw [Clean3.singleSimplifiable, Clean3.visit_false_kind x, hx]
      rfl
  | x :: y :: rest =>
      show Clean3.singleSimplifiable
        (Clean3.visit false x :: Clean3.visit false y :: Clean3.visitList rest) = none
      simp [Clean3.singleSimplifiable]

theorem Clean3.simplifyThen_visitOpt (o : Option Stmt)
    (h : Clean3.simplifyThen o = none) :
    Clean3.simplifyThen (Clean3.visitOpt false o) = none := by
  match o with
  | none => rfl
  | some (.exprStmt e) => rfl
  | some (.returnStmt e) => rfl
  | some (.otherStmt t cs) => rfl
  | some (.ifStmt c t e) =>
      show Clean3.simplifyThen (some (Clean3.visit false (.ifStmt c t e))) = none
      rw [Clean3.visit]
      cases h2 : Clean3.simplifyThen t with
      | none => rfl
      | some single => rfl
  | some (.block stmts) =>
      have h' : Clean3.singleSimplifiable stmts = none := h
      show Clean3.simplifyThen (some (Clean3.visit false (.block stmts))) = none
      have hb : Clean3.visit false (.block stmts) = .block (Clean3.visitList stmts) := by
        rw [Clean3.visit]
        rfl
      rw [hb]
      exact Clean3.singleSimplifiable_visitList stmts h'

theorem Clean3.visit_ifStmt_eq (b : Bool) (cond : Expr) (thenB elseB : Option Stmt) :
    Clean3.visit b (.ifStmt cond thenB elseB) =
      match Clean3.simplifyThen thenB with
      | some single => .ifStmt cond (some single) (Clean3.visitOpt true elseB)
      | none => .ifStmt cond (Clean3.visitOpt false thenB) (Clean3.visitOpt true elseB) := by
  rw [Clean3.visit]

mutual
theorem Clean3.visit_idem : ∀ b s, Clean3.visit b (Clean3.visit b s) = Clean3.visit b s
  | _, .exprStmt _ => rfl
  | _, .returnStmt _ => rfl
  | b, .otherStmt t cs => by
      show Clean3.visit b (.otherStmt t (Clean3.visitList cs))
        = .otherStmt t (Clean3.visitList cs)
      rw [Clean3.visit, Clean3.visitList_idem cs]
  | b, .block stmts => by
      rw [Clean3.visit]
      cases b with
      | false =>
          simp only [Bool.false_eq_true, if_false]
          rw [Clean3.visit]
          simp only [Bool.false_eq_true, if_false]
          rw [Clean3.visitList_idem stmts]
      | true =>
          simp only [if_true]
          cases hss : Clean3.singleSimplifiable stmts with
          | some single =>
              simp only [hss]
              obtain ⟨_, h2⟩ := Clean3.singleSimplifiable_eq_some stmts single hss
              exact Clean3.visit_of_simplifiable single h2 true
          | none =>
              simp only [hss]
              rw [Clean3.visit]
              simp only [if_true]
              rw [Clean3.singleSimplifiable_visitList stmts hss]
              simp only [Clean3.visitList_idem stmts]
  | b, .ifStmt cond thenB elseB => by
      cases hst : Clean3.simplifyThen thenB with
      | some single =>
          obtain ⟨_, hSimp⟩ := Clean3.simplifyThen_eq_some thenB single hst
          rw [Clean3.visit_ifStmt_eq b cond thenB elseB]
          simp only [hst]
          rw [Clean3.visit_ifStmt_eq b cond (some single) (Clean3.visitOpt true elseB)]
          rw [Clean3.simplifyThen_of_simplifiable single hSimp]
          simp only []
          show Stmt.ifStmt cond (some (Clean3.visit false single))
              (Clean3.visitOpt true (Clean3.visitOpt true elseB))
            = Stmt.ifStmt cond (some single) (Clean3.visitOpt true elseB)
          rw [Clean3.visit_of_simplifiable single hSimp false,
            Clean3.visitOpt_idem true elseB]
      | none =>
          rw [Clean3.visit_ifStmt_eq b cond thenB elseB]
          simp only [hst]
          rw [Clean3.visit_ifStmt_eq b cond (Clean3.visitOpt false thenB)
            (Clean3.visitOpt true elseB)]
          rw [Clean3.simplifyThen_visitOpt thenB hst]
          simp only []
          rw [Clean3.visitOpt_idem false thenB, Clean3.visitOpt_idem true elseB]
theorem Clean3.visitOpt_idem : ∀ b o, Clean3.visitOpt b (Clean3.visitOpt b o) = Clean3.visitOpt b o
  | _, none => rfl
  | b, some s => by
      show some (Clean3.visit b (Clean3.visit b s)) = some (Clean3.visit b s)
      rw [Clean3.visit_idem b s]
theorem Clean3.visitList_idem : ∀ l, Clean3.visitList (Clean3.visitList l) = Clean3.visitList l
  | [] => rfl
  | s :: rest => by
      show Clean3.visit false (Clean3.visit false s) :: Clean3.visitList (Clean3.visitList rest)
        = Clean3.visit false s :: Clean3.visitList rest
      rw [Clean3.visit_idem false s, Clean3.visitList_idem rest]
end

mutual
theorem Clean3.visit_preserves_good : ∀ b s, good s = true → good (Clean3.visit b s) = true
  | _, .exprStmt _, h => h
  | _, .returnStmt _, h => h
  | b, .otherStmt t cs, h => by
      show good (.otherStmt t (Clean3.visitList cs)) = true
      rw [good] at h
      rw [good]
      exact Clean3.visitList_preserves_good cs h
  | b, .block stmts, h => by
      rw [good] at h
      rw [Clean3.visit]
      cases b with
      | false =>
          simp only [Bool.false_eq_true, if_false]
          rw [good]
          exact Clean3.visitList_preserves_good stmts h
      | true =>
          simp only [if_true]
          cases hss : Clean3.singleSimplifiable stmts with
          | some single =>
              simp only [hss]
              obtain ⟨h1, _⟩ := Clean3.singleSimplifiable_eq_some stmts single hss
              rw [h1, goodList, Bool.and_eq_true] at h
              exact h.1
          | none =>
              simp only [hss]
              rw [good]
              exact Clean3.visitList_preserves_good stmts h
  | b, .ifStmt cond thenB elseB, h => by
      rw [good, Bool.and_eq_true] at h
      obtain ⟨h1, h2⟩ := h
      have helse : goodOpt (Clean3.visitOpt true elseB) = true := by
        match elseB with
        | none => rfl
        | some eb =>
            rw [goodOpt] at h2
            show goodOpt (some (Clean3.visit true eb)) = true
            rw [goodOpt]
            exact Clean3.visit_preserves_good true eb h2
      rw [Clean3.visit_ifStmt_eq]
      cases hst : Clean3.simplifyThen thenB with
      | some single =>
          simp only [hst]
          obtain ⟨hEq, _⟩ := Clean3.simplifyThen_eq_some thenB single hst
          rw [hEq, goodThen, good, goodList, Bool.and_eq_true] at h1
          rw [good, goodThen, Bool.and_eq_true]
          exact ⟨h1.1, helse⟩
      | none =>
          simp only [hst]
          rw [good, Bool.and_eq_true]
          refine ⟨?_, helse⟩
          match thenB with
          | none => rw [goodThen] at h1; exact absurd h1 (by simp)
          | some tb =>
              rw [goodThen] at h1
              show goodThen (some (Clean3.visit false tb)) = true
              rw [goodThen]
              exact Clean3.visit_preserves_good false tb h1
theorem Clean3.visitList_preserves_good : ∀ l, goodList l = true → goodList (Clean3.visitList l) = true
  | [], h => h
  | s :: rest, h => by
      rw [goodList, Bool.and_eq_true] at h
      show goodList (Clean3.visit false s :: Clean3.visitList rest) = true
      rw [goodList, Clean3.visit_preserves_good false s h.1, Clean3.visitList_preserves_good rest h.2]
      rfl
end

/-- The composed tree rewrite of the pipeline is idempotent: `Clean1.visit`
leaves no removable expression statement behind, `Clean3.visit` preserves
that, `Clean1.visit` is the identity on such trees, and `Clean3.visit` is
idempotent. -/
theorem rewriteFile_idem (f : List Stmt) : rewriteFile (rewriteFile f) = rewriteFile f := by
  show Clean3.visitList (Clean1.visitList (Clean3.visitList (Clean1.visitList f)))
    = Clean3.visitList (Clean1.visitList f)
  have hg : goodList (Clean3.visitList (Clean1.visitList f)) = true :=
    Clean3.visitList_preserves_good _ (Clean1.visitList_good f)
  rw [Clean1.visitList_id _ hg, Clean3.visitList_idem]

theorem splitNl_no_newline : ∀ l c, c ∈ splitNl l → '\n' ∉ c := by
  intro l
  induction l with
  | nil =>
      intro c hc
      rw [splitNl] at hc
      simp only [List.mem_singleton] at hc
      rw [hc]
      exact List.not_mem_nil '\n'
  | cons ch rest ih =>
      intro c hc
      rw [splitNl] at hc
      by_cases hch : ch = '\n'
      · rw [if_pos hch] at hc
        rcases List.mem_cons.mp hc with h | h
        · rw [h]; exact List.not_mem_nil '\n'
        · exact ih c h
      · rw [if_neg hch] at hc
        cases hs : splitNl rest with
        | nil =>
            rw [hs] at hc
            simp only [List.mem_singleton] at hc
            rw [hc]
            intro hmem
            rcases List.mem_cons.mp hmem with h | h
            · exact hch h.symm
            · exact List.not_mem_nil '\n' h
        | cons l0 ls =>
            rw [hs] at hc
            rcases List.mem_cons.mp hc with h | h
            · rw [h]
              intro hmem
              rcases List.mem_cons.mp hmem with h2 | h2
              · exact hch h2.symm
              · exact ih l0 (hs ▸ List.mem_cons_self l0 ls) h2
            · exact ih c (hs ▸ List.mem_cons_of_mem l0 h)

theorem splitNl_of_no_newline : ∀ l : List Char, '\n' ∉ l → splitNl l = [l] := by
  intro l
  induction l with
  | nil => intro _; rfl
  | cons ch rest ih =>
      intro h
      have hch : ¬ ch = '\n' := fun he => h (he ▸ List.mem_cons_self ch rest)
      have hrest : '\n' ∉ rest := fun hm => h (List.mem_cons_of_mem ch hm)
      rw [splitNl, if_neg hch, ih hrest]

theorem splitNl_append (l t : List Char) (h : '\n' ∉ l) :
    splitNl (l ++ '\n' :: t) = l :: splitNl t := by
  induction l with
  | nil =>
      rw [List.nil_append, splitNl, if_pos rfl]
  | cons ch rest ih =>
      have hch : ¬ ch = '\n' := fun he => h (he ▸ List.mem_cons_self ch rest)
      have hrest : '\n' ∉ rest := fun hm => h (List.mem_cons_of_mem ch hm)
      rw [List.cons_append, splitNl, if_neg hch, ih hrest]

theorem splitNl_joinNl : ∀ ls : List (List Char), ls ≠ [] →
    (∀ c ∈ ls, '\n' ∉ c) → splitNl (joinNl ls) = ls
  | [], hne, _ => absurd rfl hne
  | [l], _, hnl => by
      rw [joinNl]
      exact splitNl_of_no_newline l (hnl l (List.mem_singleton.mpr rfl))
  | l :: l2 :: rest, _, hnl => by
      rw [joinNl, splitNl_append l _ (hnl l (List.mem_cons_self _ _))]
      rw [splitNl_joinNl (l2 :: rest) (by simp)
        (fun c hc => hnl c (List.mem_cons_of_mem l hc))]

theorem keepLine_nil : keepLine [] = false := by decide

theorem removeCommentsAndEmptyLines_idem (y : String) :
    Clean1.removeCommentsAndEmptyLines (Clean1.removeCommentsAndEmptyLines y)
      = Clean1.removeCommentsAndEmptyLines y := by
  rw [Clean1.removeCommentsAndEmptyLines, Clean1.removeCommentsAndEmptyLines]
  cases hk : (splitNl y.data).filter keepLine with
  | nil =>
      show String.mk (joinNl ((splitNl ([] : List Char)).filter keepLine)) = String.mk (joinNl [])
      rw [splitNl]
      show String.mk (joinNl (if keepLine [] then [[]] else [])) = String.mk (joinNl [])
      rw [keepLine_nil]
      rfl
  | cons k ks =>
      have hne : k :: ks ≠ [] := by simp
      have hnl : ∀ c ∈ k :: ks, '\n' ∉ c := by
        intro c hc
        have : c ∈ (splitNl y.data).filter keepLine := hk ▸ hc
        exact splitNl_no_newline y.data c (List.mem_of_mem_filter this)
      show String.mk (joinNl ((splitNl (joinNl (k :: ks))).filter keepLine))
        = String.mk (joinNl (k :: ks))
      rw [splitNl_joinNl (k :: ks) hne hnl]
      have hall : ∀ c ∈ k :: ks, keepLine c := by
        intro c hc
        have : c ∈ (splitNl y.data).filter keepLine := hk ▸ hc
        exact List.of_mem_filter this
      rw [List.filter_eq_self.mpr hall]

/-- `console.log(a)` — the removable logging-sink call of the spec's tests
(written `sink.log(a)` there). -/
def consoleLogA : Expr := .call (.propAccess (.ident "console") "log") [.ident "a"]

/-- `doWork()` — a non-removable call (bare-identifier callee). -/
def doWorkCall : Expr := .call (.ident "doWork") []

/-- `foo()`. -/
def fooCall : Expr := .call (.ident "foo") []

/-- `bar()`. -/
def barCall : Expr := .call (.ident "bar") []

/-- C1: the claim says that for `if (c) { console.log(a) } else { doWork() }`
the whole `IfStatement` collapses to the rewritten else branch.  In the code
the collapse rule (clean1.js lines 42–45) tests
`ts.isExpressionStatement(node.thenStatement)`, which is false for a `Block`
wrapping the call, so on the braced test input the then-block merely
rewrites to an empty block that stays in place, `if (c) { } else { doWork() }`.
Only the unbraced variant `if (c) console.log(a); else doWork();` collapses
as claimed (second conjunct). -/
theorem c1_braced_then_does_not_collapse :
    Clean1.visit (.ifStmt (.ident "c")
        (some (.block [.exprStmt consoleLogA]))
        (some (.block [.exprStmt doWorkCall])))
      = some (.ifStmt (.ident "c")
          (some (.block []))
          (some (.block [.exprStmt doWorkCall])))
    ∧ Clean1.visit (.ifStmt (.ident "c")
        (some (.exprStmt consoleLogA))
        (some (.exprStmt doWorkCall)))
      = some (.exprStmt doWorkCall) := ⟨rfl, rfl⟩

/-- C2: the claim says a branch `Block` whose statements all rewrite to
`Remove` is treated as absent, so `if (c) { console.log(a) }` vanishes and
an empty block is never emitted.  In the code the emptied block is a truthy
node, the `!thenStatement` guard (clean1.js line 53) does not fire, and the
output is `if (c) { }` — an explicit empty block.  The unbraced variant
`if (c) console.log(a);` does vanish (second conjunct). -/
theorem c2_emptied_block_is_emitted :
    Clean1.visit (.ifStmt (.ident "c") (some (.block [.exprStmt consoleLogA])) none)
      = some (.ifStmt (.ident "c") (some (.block [])) none)
    ∧ Clean1.visit (.ifStmt (.ident "c") (some (.exprStmt consoleLogA)) none)
      = none := ⟨rfl, rfl⟩

/-- C3: the claim says that for `if (c) doWork(); else { console.log(a) }`
the else branch is dropped, leaving `if (c) doWork();`.  In the code the
else-drop rule (clean1.js lines 47–51) tests
`ts.isExpressionStatement(node.elseStatement)`, false for a `Block`, so the
braced else rewrites to an empty block kept as `else { }`.  The unbraced
variant is dropped as claimed (second conjunct) — though by the visited
else being `undefined` rather than by the rule's own guard, which can never
fire (`Clean1.visitOpt_of_removable`). -/
theorem c3_braced_else_not_dropped :
    Clean1.visit (.ifStmt (.ident "c")
        (some (.exprStmt doWorkCall))
        (some (.block [.exprStmt consoleLogA])))
      = some (.ifStmt (.ident "c") (some (.exprStmt doWorkCall)) (some (.block [])))
    ∧ Clean1.visit (.ifStmt (.ident "c")
        (some (.exprStmt doWorkCall))
        (some (.exprStmt consoleLogA)))
      = some (.ifStmt (.ident "c") (some (.exprStmt doWorkCall)) none) := ⟨rfl, rfl⟩

/-- C4: the per-file pipeline — parse, rewrite (Conditional Rewriter then
Block Simplifier), print, blank-line filter — is idempotent.  Parsing and
printing are the external collaborators of spec §1; the hypothesis is their
conformance at the only point used: re-parsing the filtered print of the
rewritten tree yields that tree back.  The tree rewrite is idempotent
(`rewriteFile_idem`) and, unconditionally, so is the blank-line filter
(second conjunct). -/
theorem c4_pipeline_idempotent (parse : String → List Stmt)
    (print : List Stmt → String) (x : String)
    (hconform : parse (Clean1.removeCommentsAndEmptyLines
        (print (rewriteFile (parse x)))) = rewriteFile (parse x)) :
    pipeline parse print (pipeline parse print x) = pipeline parse print x
    ∧ ∀ y : String,
        Clean1.removeCommentsAndEmptyLines (Clean1.removeCommentsAndEmptyLines y)
          = Clean1.removeCommentsAndEmptyLines y := by
  constructor
  · simp only [pipeline]
    rw [hconform, rewriteFile_idem]
  · exact removeCommentsAndEmptyLines_idem

theorem c4_pipeline_idempotent_witness :
    pipeline (fun _ => []) (fun _ => "")
        (pipeline (fun _ => []) (fun _ => "") "hello")
      = pipeline (fun _ => []) (fun _ => "") "hello" :=
  (c4_pipeline_idempotent (fun _ => []) (fun _ => "") "hello" rfl).1

/-- C5: the Block Simplifier un-braces a single-statement `if`/`else` block
only when the single statement is an `ExpressionStatement` or a
`ReturnStatement`; blocks with zero statements, two or more statements, or
a single statement of any other kind keep their braces (their contents are
still visited in place), on both the then side (conjuncts 1–3) and the else
side (conjuncts 4–5); in particular the dangling-else test tree
`if (a) { if (b) foo(); } else bar();` is returned entirely unchanged
(conjunct 6). -/
theorem c5_block_simplifier_guard :
    (∀ (b : Bool) (cond : Expr) (s : Stmt) (e : Option Stmt),
        Clean3.visit b (.ifStmt cond (some (.block [s])) e)
          = .ifStmt cond
              (some (if Clean3.isSimplifiable s then s else .block [Clean3.visit false s]))
              (Clean3.visitOpt true e))
    ∧ (∀ (b : Bool) (cond : Expr) (e : Option Stmt),
        Clean3.visit b (.ifStmt cond (some (.block [])) e)
          = .ifStmt cond (some (.block [])) (Clean3.visitOpt true e))
    ∧ (∀ (b : Bool) (cond : Expr) (s1 s2 : Stmt) (rest : List Stmt) (e : Option Stmt),
        Clean3.visit b (.ifStmt cond (some (.block (s1 :: s2 :: rest))) e)
          = .ifStmt cond (some (.block (Clean3.visitList (s1 :: s2 :: rest))))
              (Clean3.visitOpt true e))
    ∧ (∀ s : Stmt, Clean3.isSimplifiable s = true →
        Clean3.visit true (.block [s]) = s)
    ∧ (∀ s : Stmt, Clean3.isSimplifiable s = false →
        Clean3.visit true (.block [s]) = .block [Clean3.visit false s])
    ∧ Clean3.visit false (.ifStmt (.ident "a")
          (some (.block [.ifStmt (.ident "b") (some (.exprStmt fooCall)) none]))
          (some (.exprStmt barCall)))
        = .ifStmt (.ident "a")
            (some (.block [.ifStmt (.ident "b") (some (.exprStmt fooCall)) none]))
            (some (.exprStmt barCall)) := by
  refine ⟨?_, ?_, ?_, ?_, ?_, rfl⟩
  · intro b cond s e
    rw [Clean3.visit_ifStmt_eq]
    cases hs : Clean3.isSimplifiable s with
    | true =>
        have : Clean3.simplifyThen (some (.block [s])) = some s := by
          show Clean3.singleSimplifiable [s] = some s
          rw [Clean3.singleSimplifiable, hs]
          rfl
        rw [this]
        rfl
    | false =>
        have : Clean3.simplifyThen (some (.block [s])) = none := by
          show Clean3.singleSimplifiable [s] = none
          rw [Clean3.singleSimplifiable, hs]
          rfl
        rw [this]
        rfl
  · intro b cond e
    rw [Clean3.visit_ifStmt_eq]
    rfl
  · intro b cond s1 s2 rest e
    rw [Clean3.visit_ifStmt_eq]
    rfl
  · intro s hs
    rw [Clean3.visit]
    show (match Clean3.singleSimplifiable [s] with
      | some single => single
      | none => Stmt.block (Clean3.visitList [s])) = s
    rw [Clean3.singleSimplifiable, hs]
    rfl
  · intro s hs
    rw [Clean3.visit]
    show (match Clean3.singleSimplifiable [s] with
      | some single => single
      | none => Stmt.block (Clean3.visitList [s])) = .block [Clean3.visit false s]
    rw [Clean3.singleSimplifiable, hs]
    rfl

theorem c5_block_simplifier_guard_witness :
    Clean3.visit true (.block [.returnStmt none]) = .returnStmt none
    ∧ Clean3.visit true (.block [.ifStmt (.ident "b") (some (.exprStmt fooCall)) none])
        = .block [Clean3.visit false (.ifStmt (.ident "b") (some (.exprStmt fooCall)) none)] :=
  ⟨c5_block_simplifier_guard.2.2.2.1 (.returnStmt none) rfl,
   c5_block_simplifier_guard.2.2.2.2.1 (.ifStmt (.ident "b") (some (.exprStmt fooCall)) none) rfl⟩

/-- C6: the post-print textual filter outputs exactly those input lines
that contain the preservation marker `'eslint'` or are non-empty after
trimming surrounding whitespace — it is the newline-join of the `keepLine`
filter of the input's lines (conjunct 1), the kept lines are a sublist of
the input lines, in order and with content unchanged (conjunct 2), and a
line is dropped iff it lacks the marker and trims to empty (conjunct 3). -/
theorem c6_filter_characterization : ∀ printed : String,
    Clean1.removeCommentsAndEmptyLines printed
        = String.mk (joinNl ((splitNl printed.data).filter keepLine))
    ∧ List.Sublist ((splitNl printed.data).filter keepLine) (splitNl printed.data)
    ∧ ∀ l : List Char,
        (keepLine l = false ↔ ¬ ("eslint".data <:+: l) ∧ trimChars l = []) := by
  intro printed
  refine ⟨rfl, List.filter_sublist _, ?_⟩
  intro l
  rw [keepLine]
  rw [Bool.or_eq_false_iff]
  constructor
  · intro h
    refine ⟨decide_eq_false_iff_not.mp h.1, ?_⟩
    have h2 : ¬ (0 < (trimChars l).length) := decide_eq_false_iff_not.mp h.2
    exact List.length_eq_zero.mp (Nat.eq_zero_of_not_pos h2)
  · intro h
    refine ⟨decide_eq_false_iff_not.mpr h.1, decide_eq_false_iff_not.mpr ?_⟩
    rw [h.2]
    simp

/-- C7: `processFile` writes only when the transformed text differs from
the original: when the transformation returns the input unchanged the file
is reported as unchanged, its stored contents are the original bytes, and
no write happens (conjunct 1, in both dry-run and live mode); conversely a
write implies the transformed text differed (conjunct 2). -/
theorem c7_processFile_noop_stable :
    (∀ (transform : String → String) (dryRun : Bool) (sourceCode : String),
        transform sourceCode = sourceCode →
          Clean3.processFile transform dryRun sourceCode
            = ⟨sourceCode, false, false⟩)
    ∧ (∀ (transform : String → String) (dryRun : Bool) (sourceCode : String),
        (Clean3.processFile transform dryRun sourceCode).wrote = true →
          transform sourceCode ≠ sourceCode) := by
  constructor
  · intro t d c h
    rw [Clean3.processFile, if_neg (fun hne => hne h.symm)]
  · intro t d c hw habs
    rw [Clean3.processFile, if_neg (fun hne => hne habs.symm)] at hw
    exact absurd hw (by simp)

theorem c7_processFile_noop_stable_witness :
    Clean3.processFile (fun s => s) false "a" = ⟨"a", false, false⟩
    ∧ (fun _ : String => "x") "y" ≠ "y" :=
  ⟨c7_processFile_noop_stable.1 (fun s => s) false "a" rfl,
   c7_processFile_noop_stable.2 (fun _ => "x") false "y" rfl⟩

/-- C8: no tree produced by the Conditional Rewriter contains an
`IfStatement` with an absent then-branch (conjunct 1, for every input, with
`Option.all` handling a removed statement); and when the pre-rewrite
then-branch is an expression statement firing a removable call, the whole
`IfStatement` is replaced by the rewritten else branch — absent if none
(conjunct 2). -/
theorem c8_no_absent_then :
    (∀ s : Stmt, (Clean1.visit s).all noAbsentThen = true)
    ∧ (∀ (cond : Expr) (e : Expr) (elseB : Option Stmt),
        shouldRemoveCall e = true →
          Clean1.visit (.ifStmt cond (some (.exprStmt e)) elseB)
            = Clean1.visitOpt elseB) := by
  constructor
  · intro s
    cases h : Clean1.visit s with
    | none => rfl
    | some t =>
        show noAbsentThen t = true
        exact good_noAbsentThen t (Clean1.visit_good s t h)
  · intro cond e elseB h
    rw [Clean1.visit_ifStmt]
    have hrem : Clean1.isRemovableExprStmt (some (.exprStmt e)) = true := h
    rw [hrem]
    rfl

theorem c8_no_absent_then_witness :
    Clean1.visit (.ifStmt (.ident "c") (some (.exprStmt consoleLogA))
        (some (.exprStmt doWorkCall)))
      = Clean1.visitOpt (some (.exprStmt doWorkCall)) :=
  c8_no_absent_then.2 (.ident "c") consoleLogA (some (.exprStmt doWorkCall)) rfl

/-- C9: `shouldRemoveCall` is total over expressions (all constructor
shapes are covered below) and holds for a call iff its callee is a property
access `X.method` with `X` exactly the identifier `console` and `method`
equal to `log`, or `method` in the denylist regardless of `X`; it is false
for a call whose callee is a bare identifier — whatever its name, including
denylist names — and for every non-call node. -/
theorem c9_shouldRemoveCall_spec :
    (∀ (X : Expr) (m : String) (args : List Expr),
        shouldRemoveCall (.call (.propAccess X m) args) = true
          ↔ ((X = .ident "console" ∧ m = "log") ∨ m ∈ REMOVABLE_FUNCTIONS))
    ∧ (∀ (n : String) (args : List Expr),
        shouldRemoveCall (.call (.ident n) args) = false)
    ∧ (∀ (c : Expr) (args args2 : List Expr),
        shouldRemoveCall (.call (.call c args) args2) = false)
    ∧ (∀ (t : String) (cs args : List Expr),
        shouldRemoveCall (.call (.otherExpr t cs) args) = false)
    ∧ (∀ n : String, shouldRemoveCall (.ident n) = false)
    ∧ (∀ (o : Expr) (p : String), shouldRemoveCall (.propAccess o p) = false)
    ∧ (∀ (t : String) (cs : List Expr), shouldRemoveCall (.otherExpr t cs) = false) := by
  refine ⟨?_, fun _ _ => rfl, fun _ _ _ => rfl, fun _ _ _ => rfl,
    fun _ => rfl, fun _ _ => rfl, fun _ _ => rfl⟩
  intro X m args
  rw [shouldRemoveCall]
  rw [Bool.or_eq_true, Bool.and_eq_true]
  constructor
  · intro h
    rcases h with ⟨h1, h2⟩ | h
    · exact Or.inl ⟨(exprText_eq_console X).mp (beq_iff_eq.mp h1), beq_iff_eq.mp h2⟩
    · refine Or.inr ?_
      have := h
      simp [List.contains] at this
      exact this
  · intro h
    rcases h with ⟨h1, h2⟩ | h
    · exact Or.inl ⟨beq_iff_eq.mpr ((exprText_eq_console X).mpr h1), beq_iff_eq.mpr h2⟩
    · refine Or.inr ?_
      simp [List.contains]
      exact h

/-- C10: the Conditional Rewriter never rewrites inside an expression: its
action on every expression node is the identity (conjunct 1), so a
removable call occurring as a subexpression survives unchanged; an
expression statement whose top-level expression is not itself a removable
call is kept with that expression intact (conjunct 2), a return statement
keeps its expression (conjunct 3), and an `IfStatement` either collapses to
its rewritten else branch or keeps its condition expression verbatim
(conjunct 4). -/
theorem c10_expressions_survive :
    (∀ e : Expr, visitExpr e = e)
    ∧ (∀ e : Expr, shouldRemoveCall e = false →
        Clean1.visit (.exprStmt e) = some (.exprStmt e))
    ∧ (∀ e : Option Expr, Clean1.visit (.returnStmt e) = some (.returnStmt e))
    ∧ (∀ (cond : Expr) (thenB elseB : Option Stmt),
        Clean1.visit (.ifStmt cond thenB elseB) = Clean1.visitOpt elseB
          ∨ ∃ t : Stmt, Clean1.visit (.ifStmt cond thenB elseB)
              = some (.ifStmt cond (some t) (Clean1.visitOpt elseB))) := by
  refine ⟨visitExpr_id, ?_, ?_, ?_⟩
  · intro e h
    rw [Clean1.visit, h, visitExpr_id e]
    rfl
  · intro e
    rw [Clean1.visit]
    cases e with
    | none => rfl
    | some e0 => rw [Option.map, visitExpr_id e0]
  · intro cond thenB elseB
    rw [Clean1.visit_ifStmt]
    cases h1 : Clean1.isRemovableExprStmt thenB with
    | true => exact Or.inl rfl
    | false =>
        cases hthen : Clean1.visitOpt thenB with
        | none => exact Or.inl rfl
        | some t => exact Or.inr ⟨t, rfl⟩

theorem c10_expressions_survive_witness :
    Clean1.visit (.exprStmt doWorkCall) = some (.exprStmt doWorkCall) :=
  c10_expressions_survive.2.1 doWorkCall rfl

theorem c6_filter_characterization_witness :
    keepLine [] = false ↔ ¬ ("eslint".data <:+: ([] : List Char)) ∧ trimChars [] = [] :=
  (c6_filter_characterization "").2.2 []

theorem c9_shouldRemoveCall_spec_witness :
    shouldRemoveCall (.call (.ident "debug") []) = false :=
  c9_shouldRemoveCall_spec.2.1 "debug" []
